import Mathlib

/-!
# Verification of `probablyutf8seq` (src/testutf8.c)

The C function scans a `char` buffer of declared length `len` and answers whether it
looks like a concatenation of one- to four-byte UTF-8 forms.

Modelling decisions, all taken from the source text:

* the buffer is a list of bytes (`Fin 256`, the object representation of a `char`);
  reading outside the list is a fault (`Fault.outOfBounds`), not a value;
* whether plain `char` is signed is implementation-defined in C, so the conversion of a
  stored byte to the value of `char c` takes the signedness as a parameter
  (`true`: two's-complement signed char as on x86 and x86-64; `false`: unsigned char);
* `&` on `int` is computed on the 32-bit two's-complement representation;
* the cursor arithmetic (`pos++`, `pos+1`, `pos+2`) is given in two readings.  In `body`,
  `loop` and `probablyutf8seq` the sums are taken on mathematical integers; in `bodyWrap`,
  `loopWrap` and `probablyutf8seqWrap` every sum is reduced modulo 2^32 into the range of a
  32-bit `int`, as the machine computes it.  The two readings agree for `len <= 2^31 - 3`
  (`probablyutf8seqWrap_eq`); for `len = 2^31 - 2` and `len = 2^31 - 1` a lookahead sum can
  wrap, and the statements that depend on it are made about `probablyutf8seqWrap`;
* a third copy, `probablyutf8seq32`, computes every sum with a range check
  (`Fault.intOverflow`) and is proved to agree with the integer reading in the same range;
* the `while` loop runs on fuel; the functions supply `len` units, and running out is a
  fault (`Fault.fuelExhausted`) that is proved not to occur;
* of `main`, the line loop is modelled on the list of buffers that `fgets` delivers.
-/

namespace Utf8Check

/-- One stored byte of the buffer. -/
abbrev Byte := Fin 256

/-- Ways in which an execution of the model can fail to produce a verdict. -/
inductive Fault where
  | outOfBounds
  | fuelExhausted
  | intOverflow
  deriving DecidableEq

deriving instance DecidableEq for Except

/-- The 32-bit two's-complement representation of an `int`. -/
def toU32 (x : Int) : Nat := (x % 4294967296).toNat

/-- The `int` denoted by a 32-bit two's-complement representation. -/
def ofU32 (n : Nat) : Int :=
  if n < 2147483648 then (n : Int) else (n : Int) - 4294967296

/-- C's `&` on two `int` operands. -/
def band (x y : Int) : Int := ofU32 (Nat.land (toU32 x) (toU32 y))

/-- The value of a `char` object holding byte `b`, after promotion to `int`. -/
def toChar (signed : Bool) (b : Byte) : Int :=
  if signed && decide (128 ≤ b.val) then (b.val : Int) - 256 else (b.val : Int)

/-- The expression `seq[pos]`: the char stored at index `pos`, or a fault outside the buffer. -/
def readChar (signed : Bool) (seq : List Byte) (pos : Int) : Except Fault Int :=
  if pos < 0 then Except.error Fault.outOfBounds
  else
    match seq[pos.toNat]? with
    | some b => Except.ok (toChar signed b)
    | none => Except.error Fault.outOfBounds

/-- The local variables of `probablyutf8seq` that live across loop iterations. -/
structure State where
  pos : Int
  ok : Bool
  uch : Int
  deriving DecidableEq

/-- The statement `ok = ok && ((seq[pos++] & 0xC0) == 0x80);`.  The right operand of `&&`,
read and increment included, is evaluated only when `ok` is nonzero. -/
def contStep (signed : Bool) (seq : List Byte) (st : State) : Except Fault State :=
  if st.ok then
    match readChar signed seq st.pos with
    | Except.ok c => Except.ok { pos := st.pos + 1, ok := band c 0xC0 == 0x80, uch := st.uch }
    | Except.error e => Except.error e
  else Except.ok st

/-- One execution of the body of the `while` loop (source lines 16-42), with the sums on `pos`
taken on mathematical integers.  `bodyWrap` is the same body with 32-bit sums; the two agree
when `0 <= pos < len <= 2^31 - 3` (`bodyWrap_eq`). -/
def body (signed : Bool) (seq : List Byte) (len : Int) (st : State) : Except Fault State :=
  match readChar signed seq st.pos with
  | Except.error e => Except.error e
  | Except.ok c =>
    let pos := st.pos + 1
    if c == 0 then
      Except.ok { pos := pos, ok := false, uch := st.uch }
    else if band c 0x80 != 0 then
      let st1 : State := { pos := pos, ok := st.ok, uch := c }
      if band c 0xE0 == 0xC0 && c != 0xC0 && c != 0xC1 then
        if pos < len then
          contStep signed seq st1
        else
          Except.ok { pos := pos, ok := false, uch := c }
      else if band c 0xF0 == 0xE0 then
        if pos + 1 < len then
          contStep signed seq st1 >>= contStep signed seq
        else
          Except.ok { pos := pos, ok := false, uch := c }
      else if band c 0xF8 == 0xF0 && decide (c ≤ 0xF4) then
        if pos + 2 < len then
          contStep signed seq st1 >>= contStep signed seq >>= contStep signed seq
        else
          Except.ok { pos := pos, ok := false, uch := c }
      else
        Except.ok { pos := pos, ok := false, uch := c }
    else
      Except.ok { pos := pos, ok := st.ok, uch := c }

/-- The loop `while (ok && (pos < len)) { ... }`, with a bound on the number of iterations. -/
def loop (signed : Bool) (seq : List Byte) (len : Int) : Nat → State → Except Fault State
  | fuel, st =>
    if st.ok && decide (st.pos < len) then
      match fuel with
      | 0 => Except.error Fault.fuelExhausted
      | fuel + 1 =>
        match body signed seq len st with
        | Except.ok st1 => loop signed seq len fuel st1
        | Except.error e => Except.error e
    else Except.ok st

/-- The function `probablyutf8seq(seq, len)`; the C result 1 is `true`, 0 is `false`. -/
def probablyutf8seq (signed : Bool) (seq : List Byte) (len : Int) : Except Fault Bool :=
  if len < 0 then Except.ok false
  else if len == 0 then Except.ok true
  else
    match loop signed seq len len.toNat { pos := 0, ok := true, uch := 0 } with
    | Except.ok st => Except.ok st.ok
    | Except.error e => Except.error e

/-! ## A list-level reading of the scan

The conditions below are the tests of the source, collected per byte; `scan` consumes a
list form by form.  These definitions serve the proofs: every result is stated about
`probablyutf8seq`. -/

/-- The number of continuation bytes that the tests of source lines 17-40 demand after a
first byte whose stored value is `b`, or `none` when those tests clear `ok`. -/
def arity (signed : Bool) (b : Byte) : Option Nat :=
  let c := toChar signed b
  if c == 0 then none
  else if band c 0x80 != 0 then
    if band c 0xE0 == 0xC0 && c != 0xC0 && c != 0xC1 then some 1
    else if band c 0xF0 == 0xE0 then some 2
    else if band c 0xF8 == 0xF0 && decide (c ≤ 0xF4) then some 3
    else none
  else some 0

/-- The test `(seq[pos] & 0xC0) == 0x80` on a stored byte. -/
def isCont (signed : Bool) (b : Byte) : Bool := band (toChar signed b) 0xC0 == 0x80

/-- Form-by-form scan of a list of bytes. -/
def scan (signed : Bool) : List Byte → Bool
  | [] => true
  | b :: rest =>
    match arity signed b with
    | none => false
    | some n =>
      decide (n ≤ rest.length) && ((rest.take n).all (isCont signed) && scan signed (rest.drop n))
termination_by l => l.length
decreasing_by
  simp only [List.length_drop, List.length_cons]
  omega

/-! ## The forms of the specification

Written from the words of the specification, independently of the source: a form is a single
byte in 0x01..0x7F, or a lead byte in 0xC2..0xDF, 0xE0..0xEF, 0xF0..0xF4 followed by one, two,
three continuation bytes, a continuation byte being any byte in 0x80..0xBF. -/

/-- A continuation byte in the words of the specification. -/
def SpecCont (b : Byte) : Prop := 0x80 ≤ b.val ∧ b.val ≤ 0xBF

instance (b : Byte) : Decidable (SpecCont b) := by
  unfold SpecCont
  infer_instance

/-- One valid form in the words of the specification. -/
inductive SpecForm : List Byte → Prop
  | single (b : Byte) : 0x01 ≤ b.val → b.val ≤ 0x7F → SpecForm [b]
  | two (l c1 : Byte) : 0xC2 ≤ l.val → l.val ≤ 0xDF → SpecCont c1 → SpecForm [l, c1]
  | three (l c1 c2 : Byte) : 0xE0 ≤ l.val → l.val ≤ 0xEF → SpecCont c1 → SpecCont c2 →
      SpecForm [l, c1, c2]
  | four (l c1 c2 c3 : Byte) : 0xF0 ≤ l.val → l.val ≤ 0xF4 → SpecCont c1 → SpecCont c2 →
      SpecCont c3 → SpecForm [l, c1, c2, c3]

/-- A list of bytes that splits, with no remainder, into consecutive valid forms. -/
inductive SpecSplit : List Byte → Prop
  | nil : SpecSplit []
  | cons (form rest : List Byte) : SpecForm form → SpecSplit rest → SpecSplit (form ++ rest)

/-- The continuation count that the specification assigns to a lead byte. -/
def SpecLead (l : Byte) (n : Nat) : Prop :=
  (0xC2 ≤ l.val ∧ l.val ≤ 0xDF ∧ n = 1) ∨ (0xE0 ≤ l.val ∧ l.val ≤ 0xEF ∧ n = 2) ∨
    (0xF0 ≤ l.val ∧ l.val ≤ 0xF4 ∧ n = 3)

instance (l : Byte) (n : Nat) : Decidable (SpecLead l n) := by
  unfold SpecLead
  infer_instance

/-! ## The loop seen iteration by iteration -/

/-- The states at the head of the `while` loop: `LoopHead signed seq len k st` says that the
call `probablyutf8seq(seq, len)` stands at the loop head in state `st` after `k` complete
executions of the loop body. -/
inductive LoopHead (signed : Bool) (seq : List Byte) (len : Int) : Nat → State → Prop
  | entry : ¬ len < 0 → len ≠ 0 → LoopHead signed seq len 0 { pos := 0, ok := true, uch := 0 }
  | iter (k : Nat) (st st1 : State) : LoopHead signed seq len k st → st.ok = true →
      st.pos < len → body signed seq len st = Except.ok st1 → LoopHead signed seq len (k + 1) st1

/-! ## The function with 32-bit `int` arithmetic

The definitions above compute `pos++`, `pos+1` and `pos+2` on mathematical integers.  The
definitions of this section are the same statements with every sum on `pos` reduced modulo
2^32 into the range of a two's-complement `int`, as the machine computes it.  The two readings
agree for `len <= 2^31 - 3` (`probablyutf8seqWrap_eq`); for `len = 2^31 - 2` and
`len = 2^31 - 1` the lookahead sums can wrap to a negative value and pass the test. -/

/-- Addition of two `int` values: the sum when a signed 32-bit `int` can hold it. -/
def addInt (a b : Int) : Except Fault Int :=
  if -2147483648 ≤ a + b ∧ a + b ≤ 2147483647 then Except.ok (a + b)
  else Except.error Fault.intOverflow

/-- The statement `ok = ok && ((seq[pos++] & 0xC0) == 0x80);` with checked increment. -/
def contStep32 (signed : Bool) (seq : List Byte) (st : State) : Except Fault State :=
  if st.ok then do
    let c ← readChar signed seq st.pos
    let pos ← addInt st.pos 1
    pure { pos := pos, ok := band c 0xC0 == 0x80, uch := st.uch }
  else Except.ok st

/-- The loop body with checked `pos++`, `pos+1` and `pos+2`. -/
def body32 (signed : Bool) (seq : List Byte) (len : Int) (st : State) : Except Fault State := do
  let c ← readChar signed seq st.pos
  let pos ← addInt st.pos 1
  if c == 0 then
    pure { pos := pos, ok := false, uch := st.uch }
  else if band c 0x80 != 0 then
    let st1 : State := { pos := pos, ok := st.ok, uch := c }
    if band c 0xE0 == 0xC0 && c != 0xC0 && c != 0xC1 then
      if pos < len then
        contStep32 signed seq st1
      else
        pure { pos := pos, ok := false, uch := c }
    else if band c 0xF0 == 0xE0 then
      let pos1 ← addInt pos 1
      if pos1 < len then
        contStep32 signed seq st1 >>= contStep32 signed seq
      else
        pure { pos := pos, ok := false, uch := c }
    else if band c 0xF8 == 0xF0 && decide (c ≤ 0xF4) then
      let pos2 ← addInt pos 2
      if pos2 < len then
        contStep32 signed seq st1 >>= contStep32 signed seq >>= contStep32 signed seq
      else
        pure { pos := pos, ok := false, uch := c }
    else
      pure { pos := pos, ok := false, uch := c }
  else
    pure { pos := pos, ok := st.ok, uch := c }

/-- The loop around `body32`. -/
def loop32 (signed : Bool) (seq : List Byte) (len : Int) : Nat → State → Except Fault State
  | fuel, st =>
    if st.ok && decide (st.pos < len) then
      match fuel with
      | 0 => Except.error Fault.fuelExhausted
      | fuel + 1 =>
        match body32 signed seq len st with
        | Except.ok st1 => loop32 signed seq len fuel st1
        | Except.error e => Except.error e
    else Except.ok st

/-- The function `probablyutf8seq` with range-checked `int` arithmetic. -/
def probablyutf8seq32 (signed : Bool) (seq : List Byte) (len : Int) : Except Fault Bool :=
  if len < 0 then Except.ok false
  else if len == 0 then Except.ok true
  else
    match loop32 signed seq len len.toNat { pos := 0, ok := true, uch := 0 } with
    | Except.ok st => Except.ok st.ok
    | Except.error e => Except.error e

/-! ## The line loop of `main` (source lines 66-78, the branch that prints) -/

/-- C's `strlen` on a buffer: the number of chars before the first NUL. -/
def strlen : List Byte → Nat
  | [] => 0
  | b :: rest => if b = 0 then 0 else strlen rest + 1

/-- The variables of `main` that live across iterations of the line loop, and the lines
printed so far: the line number and the word written by `puts`. -/
structure MainState where
  lineno : Int
  ok : Bool
  out : List (Int × String)
  deriving DecidableEq

/-- One iteration of the line loop for a buffer filled by `fgets`:
`len = strlen(buf); lineno++; printf(...); if (ok = ok && probablyutf8seq(buf, len)) ...`.
The call is the right operand of `&&`: it is made only while `ok` is nonzero. -/
def reportLine (signed : Bool) (ms : MainState) (buf : List Byte) : Except Fault MainState :=
  let len : Int := (strlen buf : Int)
  let lineno := ms.lineno + 1
  if ms.ok then
    match probablyutf8seq signed buf len with
    | Except.ok v =>
      Except.ok { lineno := lineno, ok := v,
                  out := ms.out ++ [(lineno, if v then "ok" else "nok")] }
    | Except.error e => Except.error e
  else
    Except.ok { lineno := lineno, ok := false, out := ms.out ++ [(lineno, "nok")] }

/-- The line loop over the buffers delivered by successive calls of `fgets`. -/
def reportLines (signed : Bool) : List (List Byte) → MainState → Except Fault MainState
  | [], ms => Except.ok ms
  | buf :: rest, ms =>
    match reportLine signed ms buf with
    | Except.ok ms1 => reportLines signed rest ms1
    | Except.error e => Except.error e

/-- The lines printed by `main` for a file read as the given buffers. -/
def mainLoop (signed : Bool) (lines : List (List Byte)) : Except Fault (List (Int × String)) :=
  match reportLines signed lines { lineno := 0, ok := true, out := [] } with
  | Except.ok ms => Except.ok ms.out
  | Except.error e => Except.error e

/-- Whether `probablyutf8seq` accepts a line buffer with its own `strlen`. -/
def lineAccepted (signed : Bool) (buf : List Byte) : Bool :=
  probablyutf8seq signed buf (strlen buf : Int) == Except.ok true

/-! ## Byte tables

Each table is checked on all 256 byte values and both signedness choices. -/

set_option maxRecDepth 100000 in
theorem arity_table_unsigned : ∀ b : Byte, arity false b =
    (if b.val = 0 then none
     else if b.val ≤ 0x7F then some 0
     else if 0xC2 ≤ b.val ∧ b.val ≤ 0xDF then some 1
     else if 0xE0 ≤ b.val ∧ b.val ≤ 0xEF then some 2
     else if 0xF0 ≤ b.val ∧ b.val ≤ 0xF4 then some 3
     else none) := by
  decide

set_option maxRecDepth 100000 in
theorem arity_table_signed : ∀ b : Byte, arity true b =
    (if b.val = 0 then none
     else if b.val ≤ 0x7F then some 0
     else if 0xC0 ≤ b.val ∧ b.val ≤ 0xDF then some 1
     else if 0xE0 ≤ b.val ∧ b.val ≤ 0xEF then some 2
     else if 0xF0 ≤ b.val ∧ b.val ≤ 0xF7 then some 3
     else none) := by
  decide

set_option maxRecDepth 100000 in
theorem isCont_table : ∀ (s : Bool) (b : Byte),
    isCont s b = decide (0x80 ≤ b.val ∧ b.val ≤ 0xBF) := by
  decide

set_option maxRecDepth 100000 in
theorem arity_of_specLead : ∀ (s : Bool) (l : Byte),
    (0xC2 ≤ l.val ∧ l.val ≤ 0xDF → arity s l = some 1) ∧
    (0xE0 ≤ l.val ∧ l.val ≤ 0xEF → arity s l = some 2) ∧
    (0xF0 ≤ l.val ∧ l.val ≤ 0xF4 → arity s l = some 3) := by
  decide

set_option maxRecDepth 100000 in
theorem arity_of_ascii : ∀ (s : Bool) (b : Byte),
    0x01 ≤ b.val ∧ b.val ≤ 0x7F → arity s b = some 0 := by
  decide

set_option maxRecDepth 100000 in
theorem arity_of_cont : ∀ (s : Bool) (b : Byte),
    0x80 ≤ b.val ∧ b.val ≤ 0xBF → arity s b = none := by
  decide

theorem arity_zero : ∀ s : Bool, arity s 0 = none := by
  decide

theorem isCont_zero : ∀ s : Bool, isCont s 0 = false := by
  decide

theorem isCont_iff (s : Bool) (b : Byte) : isCont s b = true ↔ SpecCont b := by
  rw [isCont_table]
  simp [SpecCont]

theorem arity_specLead (s : Bool) (l : Byte) (n : Nat) (h : SpecLead l n) :
    arity s l = some n := by
  obtain ⟨h2, h1, h3⟩ := arity_of_specLead s l
  rcases h with ⟨ha, hb, rfl⟩ | ⟨ha, hb, rfl⟩ | ⟨ha, hb, rfl⟩
  · exact h2 ⟨ha, hb⟩
  · exact h1 ⟨ha, hb⟩
  · exact h3 ⟨ha, hb⟩

set_option maxRecDepth 100000 in
theorem arity_unsigned_cases : ∀ b : Byte,
    arity false b = none ∨
    (arity false b = some 0 ∧ 0x01 ≤ b.val ∧ b.val ≤ 0x7F) ∨
    (arity false b = some 1 ∧ 0xC2 ≤ b.val ∧ b.val ≤ 0xDF) ∨
    (arity false b = some 2 ∧ 0xE0 ≤ b.val ∧ b.val ≤ 0xEF) ∨
    (arity false b = some 3 ∧ 0xF0 ≤ b.val ∧ b.val ≤ 0xF4) := by
  decide

/-! ## The loop computes `scan` -/

theorem readChar_at (s : Bool) (seq : List Byte) (pos : Int) (n : Nat) (b : Byte)
    (hp : pos = (n : Int)) (hb : seq[n]? = some b) :
    readChar s seq pos = Except.ok (toChar s b) := by
  subst hp
  simp [readChar, hb]

theorem contStep_true (s : Bool) (seq : List Byte) (pos uch : Int) (n : Nat) (b : Byte)
    (hp : pos = (n : Int)) (hb : seq[n]? = some b) :
    contStep s seq { pos := pos, ok := true, uch := uch }
      = Except.ok { pos := pos + 1, ok := isCont s b, uch := uch } := by
  simp [contStep, readChar_at s seq pos n b hp hb, isCont]

theorem contStep_false (s : Bool) (seq : List Byte) (pos uch : Int) :
    contStep s seq { pos := pos, ok := false, uch := uch }
      = Except.ok { pos := pos, ok := false, uch := uch } := by
  simp [contStep]

theorem loop_not_ok (s : Bool) (seq : List Byte) (len : Int) (fuel : Nat) (pos uch : Int) :
    loop s seq len fuel { pos := pos, ok := false, uch := uch }
      = Except.ok { pos := pos, ok := false, uch := uch } := by
  unfold loop
  simp

theorem scan_cons (s : Bool) (b : Byte) (rest : List Byte) :
    scan s (b :: rest) =
      match arity s b with
      | none => false
      | some n =>
        decide (n ≤ rest.length) && ((rest.take n).all (isCont s) && scan s (rest.drop n)) := by
  rw [scan]

theorem getElem?_after (pre l : List Byte) (k : Nat) :
    (pre ++ l)[pre.length + k]? = l[k]? := by
  rw [List.getElem?_append_right (Nat.le_add_right _ _)]
  simp

theorem getElem?_rest (pre post rest : List Byte) (b c : Byte) (k : Nat)
    (h : rest[k]? = some c) :
    (pre ++ b :: rest ++ post)[pre.length + (k + 1)]? = some c := by
  have hk : k < rest.length := by
    by_contra hk
    rw [List.getElem?_eq_none (Nat.le_of_not_lt hk)] at h
    cases h
  rw [List.append_assoc, getElem?_after, List.cons_append, List.getElem?_cons_succ,
    List.getElem?_append_left hk, h]

theorem contStep_rest (s : Bool) (pre post rest : List Byte) (b c : Byte) (k : Nat) (pos uch : Int)
    (hp : pos = (pre.length : Int) + 1 + (k : Int)) (h : rest[k]? = some c) :
    contStep s (pre ++ b :: rest ++ post) { pos := pos, ok := true, uch := uch }
      = Except.ok { pos := pos + 1, ok := isCont s c, uch := uch } :=
  contStep_true s _ pos uch (pre.length + (k + 1)) c (by subst hp; push_cast; ring)
    (getElem?_rest pre post rest b c k h)

theorem exists_cons_of_one_le (l : List Byte) (h : 1 ≤ l.length) : ∃ c1 r, l = c1 :: r := by
  match l, h with
  | c1 :: r, _ => exact ⟨c1, r, rfl⟩

theorem exists_cons_of_two_le (l : List Byte) (h : 2 ≤ l.length) :
    ∃ c1 c2 r, l = c1 :: c2 :: r := by
  match l, h with
  | [_], h => simp at h
  | c1 :: c2 :: r, _ => exact ⟨c1, c2, r, rfl⟩

theorem exists_cons_of_three_le (l : List Byte) (h : 3 ≤ l.length) :
    ∃ c1 c2 c3 r, l = c1 :: c2 :: c3 :: r := by
  match l, h with
  | [_], h => simp at h
  | [_, _], h => simp at h
  | c1 :: c2 :: c3 :: r, _ => exact ⟨c1, c2, c3, r, rfl⟩

theorem body_spec (s : Bool) (pre post : List Byte) (b : Byte) (rest : List Byte) (uch : Int) :
    ∃ st1, body s (pre ++ (b :: rest) ++ post) ((pre.length + (rest.length + 1) : Nat) : Int)
        { pos := (pre.length : Int), ok := true, uch := uch } = Except.ok st1 ∧
      match arity s b with
      | none => st1.ok = false
      | some n =>
        st1.ok = (decide (n ≤ rest.length) && (rest.take n).all (isCont s)) ∧
        (st1.ok = true → st1.pos = ((pre.length + 1 + n : Nat) : Int)) := by
  have hr : readChar s (pre ++ (b :: rest) ++ post) (pre.length : Int) = Except.ok (toChar s b) :=
    readChar_at s _ _ pre.length b rfl (by
      have := getElem?_after pre (b :: rest ++ post) 0
      simpa using this)
  unfold body arity
  rw [hr]
  simp only []
  split_ifs with h0 h1 h2 h3 h4 h5 h6 h7
  · exact ⟨_, rfl, rfl⟩
  · -- one continuation byte, present
    obtain ⟨c1, r, rfl⟩ := exists_cons_of_one_le rest (by push_cast at h3; omega)
    rw [contStep_rest s pre post (c1 :: r) b c1 0 _ _ (by simp) (by simp)]
    refine ⟨_, rfl, ?_, ?_⟩
    · simp
    · intro _
      simp
  · -- one continuation byte, missing
    have hl : rest.length = 0 := by
      push_cast at h3
      omega
    refine ⟨_, rfl, ?_, ?_⟩ <;> simp [hl]
  · -- two continuation bytes, present
    obtain ⟨c1, c2, r, rfl⟩ := exists_cons_of_two_le rest (by push_cast at h5; omega)
    rw [contStep_rest s pre post (c1 :: c2 :: r) b c1 0 _ _ (by simp) (by simp)]
    cases hc1 : isCont s c1
    · refine ⟨_, rfl, ?_, ?_⟩ <;> simp [hc1]
    · simp only [bind, Except.bind]
      rw [contStep_rest s pre post (c1 :: c2 :: r) b c2 1 _ _ (by simp) (by simp)]
      refine ⟨_, rfl, ?_, ?_⟩
      · simp [hc1]
      · intro _
        simp
        ring
  · -- two continuation bytes, missing
    have hl : ¬ 2 ≤ rest.length := by
      push_cast at h5
      omega
    refine ⟨_, rfl, ?_, ?_⟩ <;> simp [hl]
  · -- three continuation bytes, present
    obtain ⟨c1, c2, c3, r, rfl⟩ := exists_cons_of_three_le rest (by push_cast at h7; omega)
    rw [contStep_rest s pre post (c1 :: c2 :: c3 :: r) b c1 0 _ _ (by simp) (by simp)]
    cases hc1 : isCont s c1
    · refine ⟨_, rfl, ?_, ?_⟩ <;> simp [hc1]
    · simp only [bind, Except.bind]
      rw [contStep_rest s pre post (c1 :: c2 :: c3 :: r) b c2 1 _ _ (by simp) (by simp)]
      cases hc2 : isCont s c2
      · refine ⟨_, rfl, ?_, ?_⟩ <;> simp [hc1, hc2]
      · simp only []
        rw [contStep_rest s pre post (c1 :: c2 :: c3 :: r) b c3 2 _ _ (by push_cast; ring) (by simp)]
        refine ⟨_, rfl, ?_, ?_⟩
        · simp [hc1, hc2]
        · intro _
          simp
          ring
  · -- three continuation bytes, missing
    have hl : ¬ 3 ≤ rest.length := by
      push_cast at h7
      omega
    refine ⟨_, rfl, ?_, ?_⟩ <;> simp [hl]
  · exact ⟨_, rfl, rfl⟩
  · refine ⟨_, rfl, ?_, ?_⟩ <;> simp

theorem loop_stop (s : Bool) (seq : List Byte) (len : Int) (fuel : Nat) (st : State)
    (h : (st.ok && decide (st.pos < len)) = false) :
    loop s seq len fuel st = Except.ok st := by
  unfold loop
  simp [h]

theorem loop_scan (s : Bool) (n : Nat) :
    ∀ (mid : List Byte), mid.length ≤ n → ∀ (pre post : List Byte) (fuel : Nat) (uch : Int),
      mid.length ≤ fuel →
      ∃ st1, loop s (pre ++ mid ++ post) ((pre.length + mid.length : Nat) : Int) fuel
          { pos := (pre.length : Int), ok := true, uch := uch } = Except.ok st1 ∧
        st1.ok = scan s mid := by
  induction n with
  | zero =>
    intro mid hmid pre post fuel uch _
    have : mid = [] := List.length_eq_zero.mp (Nat.le_zero.mp hmid)
    subst this
    exact ⟨_, loop_stop s _ _ _ _ (by simp), by simp [scan]⟩
  | succ n ih =>
    intro mid hmid pre post fuel uch hfuel
    cases mid with
    | nil => exact ⟨_, loop_stop s _ _ _ _ (by simp), by simp [scan]⟩
    | cons b rest =>
      obtain ⟨f, rfl⟩ : ∃ f, fuel = f + 1 := ⟨fuel - 1, by simp at hfuel; omega⟩
      obtain ⟨st1, hbody, hst1⟩ := body_spec s pre post b rest uch
      unfold loop
      simp only [List.length_cons] at hbody hfuel hmid ⊢
      have hguard : (true && decide ((pre.length : Int) < ((pre.length + (rest.length + 1) : Nat) : Int))) = true := by
        simp
      simp only [hguard, if_true]
      rw [hbody]
      simp only []
      rw [scan_cons]
      cases har : arity s b with
      | none =>
        rw [har] at hst1
        simp only [] at hst1
        obtain ⟨p1, o1, u1⟩ := st1
        simp only [] at hst1
        subst hst1
        exact ⟨_, loop_not_ok s _ _ _ _ _, rfl⟩
      | some k =>
        rw [har] at hst1
        simp only [] at hst1
        obtain ⟨p1, o1, u1⟩ := st1
        simp only [] at hst1
        obtain ⟨hok, hpos⟩ := hst1
        cases o1 with
        | false =>
          refine ⟨_, loop_not_ok s _ _ _ _ _, ?_⟩
          simp only []
          rw [← Bool.and_assoc, ← hok, Bool.false_and]
        | true =>
          have hp := hpos rfl
          subst hp
          have hk : k ≤ rest.length := by
            have := hok.symm
            simp only [Bool.and_eq_true, decide_eq_true_eq] at this
            exact this.1
          have hsplit : pre ++ b :: rest ++ post
              = (pre ++ b :: rest.take k) ++ rest.drop k ++ post := by
            simp [List.append_assoc, List.take_append_drop]
          have hlen : ((pre.length + (rest.length + 1) : Nat) : Int)
              = (((pre ++ b :: rest.take k).length + (rest.drop k).length : Nat) : Int) := by
            simp [List.length_take, List.length_drop]
            omega
          have hpos1 : ((pre.length + 1 + k : Nat) : Int)
              = ((pre ++ b :: rest.take k).length : Int) := by
            simp [List.length_take, Nat.min_eq_left hk]
            omega
          rw [hsplit, hlen, hpos1]
          obtain ⟨st2, hloop, hst2⟩ := ih (rest.drop k)
            (by simp [List.length_drop]; omega) (pre ++ b :: rest.take k) post f u1
            (by simp [List.length_drop]; omega)
          refine ⟨st2, hloop, ?_⟩
          rw [hst2]
          show scan s (rest.drop k)
            = (decide (k ≤ rest.length) && ((rest.take k).all (isCont s) && scan s (rest.drop k)))
          rw [← Bool.and_assoc, ← hok, Bool.true_and]

/-- On a buffer that holds at least `len` bytes the call returns, and its verdict is the
form-by-form scan of the first `len` bytes. -/
theorem probablyutf8seq_eq_scan (s : Bool) (seq : List Byte) (len : Int)
    (h0 : 0 ≤ len) (hlen : len ≤ (seq.length : Int)) :
    probablyutf8seq s seq len = Except.ok (scan s (seq.take len.toNat)) := by
  obtain ⟨n, rfl⟩ := Int.eq_ofNat_of_zero_le h0
  have hn : n ≤ seq.length := by exact_mod_cast hlen
  unfold probablyutf8seq
  by_cases hz : n = 0
  · subst hz
    simp [scan]
  · have h1 : ¬ ((n : Int) < 0) := by omega
    have h2 : ((n : Int) == 0) = false := by
      simp
      exact hz
    simp only [h1, h2, if_false, Int.toNat_ofNat]
    obtain ⟨st1, hloop, hst1⟩ := loop_scan s n (seq.take n) (by simp) [] (seq.drop n) n 0
      (by simp)
    simp only [List.nil_append, List.take_append_drop, List.length_nil, Nat.zero_add,
      List.length_take, Nat.min_eq_left hn, Nat.cast_zero] at hloop
    rw [hloop]
    simp [hst1]

/-! ## A NUL byte below `len` stops the scan

This part does not assume that the buffer holds `len` bytes: the scan reaches the NUL, or
fails before it, without reading past it. -/

theorem toChar_eq_zero (s : Bool) (b : Byte) (h : (toChar s b == 0) = false) : b ≠ 0 := by
  intro hb
  subst hb
  revert h
  cases s <;> decide

theorem getElem?_below (seq : List Byte) (i q : Nat) (hi : seq[i]? = some 0) (hq : q ≤ i) :
    ∃ c, seq[q]? = some c := by
  have hlt : i < seq.length := by
    by_contra hlt
    rw [List.getElem?_eq_none (Nat.le_of_not_lt hlt)] at hi
    cases hi
  exact ⟨seq[q], List.getElem?_eq_getElem (by omega)⟩

theorem contStep_nul (s : Bool) (seq : List Byte) (i q : Nat) (uch : Int)
    (hi : seq[i]? = some 0) (hq : q ≤ i) :
    ∃ st1, contStep s seq { pos := (q : Int), ok := true, uch := uch } = Except.ok st1 ∧
      (st1.ok = false ∨ (st1.ok = true ∧ st1.pos = ((q + 1 : Nat) : Int) ∧ q + 1 ≤ i ∧
        st1.uch = uch)) := by
  obtain ⟨c, hc⟩ := getElem?_below seq i q hi hq
  rw [contStep_true s seq _ uch q c rfl hc]
  refine ⟨_, rfl, ?_⟩
  cases hcont : isCont s c with
  | false => exact Or.inl rfl
  | true =>
    refine Or.inr ⟨rfl, by push_cast; rfl, ?_, rfl⟩
    rcases Nat.lt_or_ge q i with h | h
    · exact h
    · have hqi : q = i := Nat.le_antisymm hq h
      subst hqi
      rw [hi] at hc
      cases hc
      rw [isCont_zero] at hcont
      cases hcont

theorem contStep_nul_chain (s : Bool) (seq : List Byte) (i q : Nat) (st : State)
    (hi : seq[i]? = some 0)
    (hst : st.ok = false ∨ (st.ok = true ∧ st.pos = (q : Int) ∧ q ≤ i)) :
    ∃ st1, contStep s seq st = Except.ok st1 ∧
      (st1.ok = false ∨ (st1.ok = true ∧ st1.pos = ((q + 1 : Nat) : Int) ∧ q + 1 ≤ i)) := by
  obtain ⟨p0, o0, u0⟩ := st
  rcases hst with h | ⟨h, hp, hq⟩
  · simp only [] at h
    subst h
    exact ⟨_, contStep_false s seq p0 u0, Or.inl rfl⟩
  · simp only [] at h hp
    subst h hp
    obtain ⟨st1, h1, h2⟩ := contStep_nul s seq i q u0 hi hq
    refine ⟨st1, h1, ?_⟩
    rcases h2 with h2 | ⟨h2, h3, h4, _⟩
    · exact Or.inl h2
    · exact Or.inr ⟨h2, h3, h4⟩

theorem body_nul (s : Bool) (seq : List Byte) (len : Int) (i p : Nat) (uch : Int)
    (hi : seq[i]? = some 0) (hp : p ≤ i) :
    ∃ st1, body s seq len { pos := (p : Int), ok := true, uch := uch } = Except.ok st1 ∧
      (st1.ok = false ∨ (st1.ok = true ∧ ∃ q : Nat, st1.pos = (q : Int) ∧ p < q ∧ q ≤ i)) := by
  obtain ⟨b, hb⟩ := getElem?_below seq i p hi hp
  have hr := readChar_at s seq (p : Int) p b rfl hb
  have hne : (toChar s b == 0) = false → p + 1 ≤ i := by
    intro h0
    rcases Nat.lt_or_ge p i with h | h
    · exact h
    · have hpi : p = i := Nat.le_antisymm hp h
      subst hpi
      rw [hi] at hb
      cases hb
      exact absurd rfl (toChar_eq_zero s 0 h0)
  have hstart : ∀ u : Int, (toChar s b == 0) = false →
      ((⟨(p : Int) + 1, true, u⟩ : State).ok = false ∨
        ((⟨(p : Int) + 1, true, u⟩ : State).ok = true ∧
          (⟨(p : Int) + 1, true, u⟩ : State).pos = ((p + 1 : Nat) : Int) ∧ p + 1 ≤ i)) := by
    intro u h0
    exact Or.inr ⟨rfl, by push_cast; rfl, hne h0⟩
  unfold body
  rw [hr]
  simp only []
  split_ifs with h0 h1 h2 h3 h4 h5 h6 h7
  · exact ⟨_, rfl, Or.inl rfl⟩
  · have h0f : (toChar s b == 0) = false := by simpa using h0
    obtain ⟨st1, e1, g1⟩ := contStep_nul_chain s seq i (p + 1) _ hi (hstart (toChar s b) h0f)
    refine ⟨st1, e1, ?_⟩
    rcases g1 with g | ⟨g, gp, gq⟩
    · exact Or.inl g
    · exact Or.inr ⟨g, p + 1 + 1, gp, by omega, gq⟩
  · exact ⟨_, rfl, Or.inl rfl⟩
  · have h0f : (toChar s b == 0) = false := by simpa using h0
    obtain ⟨st1, e1, g1⟩ := contStep_nul_chain s seq i (p + 1) _ hi (hstart (toChar s b) h0f)
    obtain ⟨st2, e2, g2⟩ := contStep_nul_chain s seq i (p + 1 + 1) st1 hi g1
    refine ⟨st2, ?_, ?_⟩
    · rw [e1]
      exact e2
    · rcases g2 with g | ⟨g, gp, gq⟩
      · exact Or.inl g
      · exact Or.inr ⟨g, p + 1 + 1 + 1, gp, by omega, gq⟩
  · exact ⟨_, rfl, Or.inl rfl⟩
  · have h0f : (toChar s b == 0) = false := by simpa using h0
    obtain ⟨st1, e1, g1⟩ := contStep_nul_chain s seq i (p + 1) _ hi (hstart (toChar s b) h0f)
    obtain ⟨st2, e2, g2⟩ := contStep_nul_chain s seq i (p + 1 + 1) st1 hi g1
    obtain ⟨st3, e3, g3⟩ := contStep_nul_chain s seq i (p + 1 + 1 + 1) st2 hi g2
    refine ⟨st3, ?_, ?_⟩
    · rw [e1]
      show (Except.ok st1 >>= contStep s seq) >>= contStep s seq = Except.ok st3
      show contStep s seq st1 >>= contStep s seq = Except.ok st3
      rw [e2]
      exact e3
    · rcases g3 with g | ⟨g, gp, gq⟩
      · exact Or.inl g
      · exact Or.inr ⟨g, p + 1 + 1 + 1 + 1, gp, by omega, gq⟩
  · exact ⟨_, rfl, Or.inl rfl⟩
  · exact ⟨_, rfl, Or.inl rfl⟩
  · have h0f : (toChar s b == 0) = false := by simpa using h0
    exact ⟨_, rfl, Or.inr ⟨rfl, p + 1, by push_cast; rfl, by omega, hne h0f⟩⟩

theorem loop_nul (s : Bool) (seq : List Byte) (len : Int) (i : Nat)
    (hi : seq[i]? = some 0) (hlen : (i : Int) < len) (k : Nat) :
    ∀ (p fuel : Nat) (uch : Int), p ≤ i → i - p ≤ k → i - p < fuel →
      ∃ st1, loop s seq len fuel { pos := (p : Int), ok := true, uch := uch } = Except.ok st1 ∧
        st1.ok = false := by
  induction k with
  | zero =>
    intro p fuel uch hp hk hfuel
    obtain ⟨f, rfl⟩ : ∃ f, fuel = f + 1 := ⟨fuel - 1, by omega⟩
    obtain ⟨st1, hbody, hst1⟩ := body_nul s seq len i p uch hi hp
    have hguard : (true && decide ((p : Int) < len)) = true := by
      simp
      omega
    unfold loop
    simp only [hguard, if_true]
    rw [hbody]
    simp only []
    rcases hst1 with h | ⟨_, q, _, h1, h2⟩
    · obtain ⟨p1, o1, u1⟩ := st1
      simp only [] at h
      subst h
      exact ⟨_, loop_not_ok s seq len f p1 u1, rfl⟩
    · omega
  | succ k ih =>
    intro p fuel uch hp hk hfuel
    obtain ⟨f, rfl⟩ : ∃ f, fuel = f + 1 := ⟨fuel - 1, by omega⟩
    obtain ⟨st1, hbody, hst1⟩ := body_nul s seq len i p uch hi hp
    have hguard : (true && decide ((p : Int) < len)) = true := by
      simp
      omega
    unfold loop
    simp only [hguard, if_true]
    rw [hbody]
    simp only []
    obtain ⟨p1, o1, u1⟩ := st1
    rcases hst1 with h | ⟨h, q, hq, h1, h2⟩
    · simp only [] at h
      subst h
      exact ⟨_, loop_not_ok s seq len f p1 u1, rfl⟩
    · simp only [] at h hq
      subst h hq
      exact ih q f u1 h2 (by omega) (by omega)

/-! ## Properties of the form-by-form scan -/

theorem scan_nil (s : Bool) : scan s [] = true := by
  rw [scan]

theorem scan_cons_true (s : Bool) (b : Byte) (rest : List Byte) :
    scan s (b :: rest) = true ↔
      ∃ n, arity s b = some n ∧ n ≤ rest.length ∧ (rest.take n).all (isCont s) = true ∧
        scan s (rest.drop n) = true := by
  rw [scan_cons]
  cases har : arity s b with
  | none => simp
  | some n => simp

theorem scan_form (s : Bool) (b : Byte) (cs rest : List Byte) (n : Nat)
    (har : arity s b = some n) (hn : cs.length = n) :
    scan s (b :: (cs ++ rest)) = (cs.all (isCont s) && scan s rest) := by
  rw [scan_cons, har]
  subst hn
  simp

theorem scan_append_aux (s : Bool) (k : Nat) :
    ∀ (A B : List Byte), A.length ≤ k → scan s A = true → scan s (A ++ B) = scan s B := by
  induction k with
  | zero =>
    intro A B hA _
    have : A = [] := List.length_eq_zero.mp (Nat.le_zero.mp hA)
    subst this
    rfl
  | succ k ih =>
    intro A B hA hscan
    cases A with
    | nil => rfl
    | cons b rest =>
      obtain ⟨n, har, hn, hall, hrest⟩ := (scan_cons_true s b rest).mp hscan
      have hsplit : b :: rest ++ B = b :: (rest.take n ++ (rest.drop n ++ B)) := by
        rw [← List.append_assoc, List.take_append_drop]
        rfl
      rw [hsplit, scan_form s b (rest.take n) (rest.drop n ++ B) n har
        (by simp [List.length_take, hn]), hall, Bool.true_and]
      exact ih (rest.drop n) B (by simp [List.length_drop] at hA ⊢; omega) hrest

theorem scan_append (s : Bool) (A B : List Byte) (hA : scan s A = true) :
    scan s (A ++ B) = scan s B :=
  scan_append_aux s A.length A B (Nat.le_refl _) hA

/-- The call on a whole list: the verdict is the scan of the list. -/
theorem probablyutf8seq_full (s : Bool) (l : List Byte) :
    probablyutf8seq s l (l.length : Int) = Except.ok (scan s l) := by
  rw [probablyutf8seq_eq_scan s l _ (Int.ofNat_nonneg _) (Int.le_refl _)]
  simp

theorem accepted_iff_scan (s : Bool) (l : List Byte) :
    probablyutf8seq s l (l.length : Int) = Except.ok true ↔ scan s l = true := by
  rw [probablyutf8seq_full]
  constructor
  · intro h
    injection h
  · intro h
    rw [h]

theorem scan_zero_mem_aux (s : Bool) (k : Nat) :
    ∀ l : List Byte, l.length ≤ k → (0 : Byte) ∈ l → scan s l = false := by
  induction k with
  | zero =>
    intro l hl hmem
    have : l = [] := List.length_eq_zero.mp (Nat.le_zero.mp hl)
    subst this
    cases hmem
  | succ k ih =>
    intro l hl hmem
    cases l with
    | nil => cases hmem
    | cons b rest =>
      rw [scan_cons]
      cases har : arity s b with
      | none => rfl
      | some n =>
        have hb : b ≠ 0 := by
          intro hb
          rw [hb, arity_zero] at har
          cases har
        have hrest : (0 : Byte) ∈ rest := by
          rcases List.mem_cons.mp hmem with h | h
          · exact absurd h.symm hb
          · exact h
        show (decide (n ≤ rest.length) && ((rest.take n).all (isCont s) && scan s (rest.drop n)))
          = false
        rw [← List.take_append_drop n rest] at hrest
        rcases List.mem_append.mp hrest with h | h
        · have hall : (rest.take n).all (isCont s) = false := by
            rw [List.all_eq_false]
            exact ⟨0, h, by simp [isCont_zero]⟩
          simp [hall]
        · have := ih (rest.drop n) (by simp [List.length_drop] at hl ⊢; omega) h
          simp [this]

theorem scan_zero_mem (s : Bool) (l : List Byte) (h : (0 : Byte) ∈ l) : scan s l = false :=
  scan_zero_mem_aux s l.length l (Nat.le_refl _) h

theorem scan_specForm (s : Bool) (form rest : List Byte) (h : SpecForm form) :
    scan s (form ++ rest) = scan s rest := by
  cases h with
  | single b h1 h2 =>
    have := scan_form s b [] rest 0 (arity_of_ascii s b ⟨h1, h2⟩) rfl
    simpa using this
  | two l c1 h1 h2 hc1 =>
    have := scan_form s l [c1] rest 1 (arity_specLead s l 1 (Or.inl ⟨h1, h2, rfl⟩)) rfl
    simpa [(isCont_iff s c1).mpr hc1] using this
  | three l c1 c2 h1 h2 hc1 hc2 =>
    have := scan_form s l [c1, c2] rest 2
      (arity_specLead s l 2 (Or.inr (Or.inl ⟨h1, h2, rfl⟩))) rfl
    simpa [(isCont_iff s c1).mpr hc1, (isCont_iff s c2).mpr hc2] using this
  | four l c1 c2 c3 h1 h2 hc1 hc2 hc3 =>
    have := scan_form s l [c1, c2, c3] rest 3
      (arity_specLead s l 3 (Or.inr (Or.inr ⟨h1, h2, rfl⟩))) rfl
    simpa [(isCont_iff s c1).mpr hc1, (isCont_iff s c2).mpr hc2, (isCont_iff s c3).mpr hc3]
      using this

theorem scan_of_specSplit (s : Bool) (l : List Byte) (h : SpecSplit l) : scan s l = true := by
  induction h with
  | nil => exact scan_nil s
  | cons form rest hform _ ih => rw [scan_specForm s form rest hform, ih]

theorem specSplit_of_scan_unsigned_aux (k : Nat) :
    ∀ l : List Byte, l.length ≤ k → scan false l = true → SpecSplit l := by
  induction k with
  | zero =>
    intro l hl _
    have : l = [] := List.length_eq_zero.mp (Nat.le_zero.mp hl)
    subst this
    exact SpecSplit.nil
  | succ k ih =>
    intro l hl hscan
    cases l with
    | nil => exact SpecSplit.nil
    | cons b rest =>
      obtain ⟨n, har, hn, hall, hrest⟩ := (scan_cons_true false b rest).mp hscan
      simp only [List.length_cons] at hl
      rcases arity_unsigned_cases b with h | ⟨h, h1, h2⟩ | ⟨h, h1, h2⟩ | ⟨h, h1, h2⟩ | ⟨h, h1, h2⟩
      · rw [h] at har
        cases har
      · rw [h] at har
        cases har
        exact SpecSplit.cons [b] rest (SpecForm.single b h1 h2)
          (ih rest (by omega) (by simpa using hrest))
      · rw [h] at har
        cases har
        obtain ⟨c1, r, rfl⟩ := exists_cons_of_one_le rest hn
        simp only [List.take_succ_cons, List.take_zero, List.all_cons, List.all_nil,
          Bool.and_true, isCont_iff] at hall
        exact SpecSplit.cons [b, c1] r (SpecForm.two b c1 h1 h2 hall)
          (ih r (by simp at hl; omega) (by simpa using hrest))
      · rw [h] at har
        cases har
        obtain ⟨c1, c2, r, rfl⟩ := exists_cons_of_two_le rest hn
        simp only [List.take_succ_cons, List.take_zero, List.all_cons, List.all_nil,
          Bool.and_true, Bool.and_eq_true, isCont_iff] at hall
        exact SpecSplit.cons [b, c1, c2] r (SpecForm.three b c1 c2 h1 h2 hall.1 hall.2)
          (ih r (by simp at hl; omega) (by simpa using hrest))
      · rw [h] at har
        cases har
        obtain ⟨c1, c2, c3, r, rfl⟩ := exists_cons_of_three_le rest hn
        simp only [List.take_succ_cons, List.take_zero, List.all_cons, List.all_nil,
          Bool.and_true, Bool.and_eq_true, isCont_iff] at hall
        exact SpecSplit.cons [b, c1, c2, c3] r
          (SpecForm.four b c1 c2 c3 h1 h2 hall.1 hall.2.1 hall.2.2)
          (ih r (by simp at hl; omega) (by simpa using hrest))

theorem scan_unsigned_iff_specSplit (l : List Byte) : scan false l = true ↔ SpecSplit l :=
  ⟨specSplit_of_scan_unsigned_aux l.length l (Nat.le_refl _), scan_of_specSplit false l⟩

/-- The first byte of a nonempty list that splits into forms is a single byte in 0x01..0x7F
or a lead byte in 0xC2..0xF4. -/
theorem specSplit_head (b : Byte) (rest : List Byte) (h : SpecSplit (b :: rest)) :
    (0x01 ≤ b.val ∧ b.val ≤ 0x7F) ∨ (0xC2 ≤ b.val ∧ b.val ≤ 0xF4) := by
  have hs := (scan_cons_true false b rest).mp ((scan_unsigned_iff_specSplit _).mpr h)
  obtain ⟨n, har, _⟩ := hs
  rcases arity_unsigned_cases b with h | ⟨_, h1, h2⟩ | ⟨_, h1, h2⟩ | ⟨_, h1, h2⟩ | ⟨_, h1, h2⟩
  · rw [h] at har
    cases har
  · exact Or.inl ⟨h1, h2⟩
  · exact Or.inr ⟨h1, by omega⟩
  · exact Or.inr ⟨by omega, by omega⟩
  · exact Or.inr ⟨by omega, h2⟩

/-- With unsigned `char` the verdict on the first `len` bytes is exactly "splits into the
forms of the specification". -/
theorem unsigned_accepts_iff_specSplit (seq : List Byte) (len : Int)
    (h0 : 0 ≤ len) (hlen : len ≤ (seq.length : Int)) :
    probablyutf8seq false seq len = Except.ok true ↔ SpecSplit (seq.take len.toNat) := by
  rw [probablyutf8seq_eq_scan false seq len h0 hlen, ← scan_unsigned_iff_specSplit]
  constructor
  · intro h
    injection h
  · intro h
    rw [h]

theorem body_refused (s : Bool) (seq : List Byte) (len : Int) (p : Nat) (b : Byte) (uch : Int)
    (hb : seq[p]? = some b) (har : arity s b = none) :
    ∃ st1, body s seq len { pos := (p : Int), ok := true, uch := uch } = Except.ok st1 ∧
      st1.ok = false := by
  have hr := readChar_at s seq (p : Int) p b rfl hb
  unfold arity at har
  unfold body
  rw [hr]
  simp only [] at har ⊢
  split_ifs at har ⊢
  all_goals exact ⟨_, rfl, rfl⟩

theorem first_byte_refused (s : Bool) (b : Byte) (rest : List Byte) (len : Int)
    (har : arity s b = none) (h1 : 1 ≤ len) :
    probablyutf8seq s (b :: rest) len = Except.ok false := by
  unfold probablyutf8seq
  have hneg : ¬ len < 0 := by omega
  have hzero : (len == 0) = false := by
    simp
    omega
  simp only [hneg, hzero, if_false]
  obtain ⟨f, hf⟩ : ∃ f, len.toNat = f + 1 := ⟨len.toNat - 1, by omega⟩
  obtain ⟨st1, hbody, hok⟩ := body_refused s (b :: rest) len 0 b 0 (by simp) har
  have hcast : ((0 : Nat) : Int) = 0 := rfl
  rw [hcast] at hbody
  have hguard : (true && decide ((0 : Int) < len)) = true := by
    simp
    omega
  rw [hf]
  unfold loop
  simp only [hguard, if_true]
  rw [hbody]
  obtain ⟨p1, o1, u1⟩ := st1
  simp only [] at hok
  subst hok
  simp only []
  rw [loop_not_ok]
  simp

/-- With unsigned `char` a first byte 0xC0 or 0xC1 is refused whatever follows. -/
theorem unsigned_rejects_overlong_lead (b : Byte) (rest : List Byte) (len : Int)
    (hb : b.val = 0xC0 ∨ b.val = 0xC1) (h1 : 1 ≤ len) :
    probablyutf8seq false (b :: rest) len = Except.ok false := by
  refine first_byte_refused false b rest len ?_ h1
  rcases arity_unsigned_cases b with h | ⟨_, h1, h2⟩ | ⟨_, h1, h2⟩ | ⟨_, h1, h2⟩ | ⟨_, h1, h2⟩
  · exact h
  all_goals omega

/-- With unsigned `char` a first byte in 0xF5..0xFF is refused whatever follows. -/
theorem unsigned_rejects_lead_above_F4 (b : Byte) (rest : List Byte) (len : Int)
    (hb : 0xF5 ≤ b.val) (h1 : 1 ≤ len) :
    probablyutf8seq false (b :: rest) len = Except.ok false := by
  refine first_byte_refused false b rest len ?_ h1
  rcases arity_unsigned_cases b with h | ⟨_, h1, h2⟩ | ⟨_, h1, h2⟩ | ⟨_, h1, h2⟩ | ⟨_, h1, h2⟩
  · exact h
  all_goals omega

theorem nonpositive_len (s : Bool) (seq : List Byte) (len : Int) (h : len ≤ 0) :
    probablyutf8seq s seq len = Except.ok (decide (len = 0)) := by
  unfold probablyutf8seq
  by_cases hneg : len < 0
  · have hne : ¬ len = 0 := by omega
    simp [hneg, hne]
  · have hz : len = 0 := by omega
    simp [hz]

/-! ## The cursor: progress and bounds -/

theorem readChar_fault (s : Bool) (seq : List Byte) (pos : Int) (e : Fault)
    (h : readChar s seq pos = Except.error e) : e = Fault.outOfBounds := by
  unfold readChar at h
  split_ifs at h
  · injection h with h
    exact h.symm
  · split at h
    · cases h
    · injection h with h
      exact h.symm

theorem contStep_pos (s : Bool) (seq : List Byte) (st st1 : State)
    (h : contStep s seq st = Except.ok st1) :
    st.pos ≤ st1.pos ∧ st1.pos ≤ st.pos + 1 := by
  unfold contStep at h
  split_ifs at h
  · split at h
    · injection h with h
      subst h
      simp
    · cases h
  · injection h with h
    subst h
    simp

theorem contStep_fault (s : Bool) (seq : List Byte) (st : State) (e : Fault)
    (h : contStep s seq st = Except.error e) : e = Fault.outOfBounds := by
  unfold contStep at h
  split_ifs at h
  · split at h
    · cases h
    · rename_i e1 hr
      injection h with h
      subst h
      exact readChar_fault s seq _ _ hr

theorem bind_ok {α β : Type} (x : Except Fault α) (f : α → Except Fault β) (b : β)
    (h : x >>= f = Except.ok b) : ∃ a, x = Except.ok a ∧ f a = Except.ok b := by
  cases x with
  | error e => cases h
  | ok a => exact ⟨a, rfl, h⟩

theorem bind_fault {α β : Type} (x : Except Fault α) (f : α → Except Fault β) (e : Fault)
    (h : x >>= f = Except.error e) :
    x = Except.error e ∨ ∃ a, x = Except.ok a ∧ f a = Except.error e := by
  cases x with
  | error e1 =>
    have h1 : (Except.error e1 : Except Fault β) = Except.error e := h
    injection h1 with h1
    subst h1
    exact Or.inl rfl
  | ok a => exact Or.inr ⟨a, rfl, h⟩

theorem body_pos (s : Bool) (seq : List Byte) (len : Int) (st st1 : State)
    (h : body s seq len st = Except.ok st1) :
    st.pos + 1 ≤ st1.pos ∧ (st.pos < len → st1.pos ≤ len) := by
  unfold body at h
  split at h
  · cases h
  · simp only [] at h
    split_ifs at h with h0 h1 h2 h3 h4 h5 h6 h7
    · injection h with h
      subst h
      exact ⟨Int.le_refl _, fun hl => hl⟩
    · have := contStep_pos s seq _ _ h
      simp only [] at this
      constructor <;> [omega; (intro _; omega)]
    · injection h with h
      subst h
      exact ⟨Int.le_refl _, fun hl => hl⟩
    · obtain ⟨a, e1, e2⟩ := bind_ok _ _ _ h
      have p1 := contStep_pos s seq _ _ e1
      have p2 := contStep_pos s seq _ _ e2
      simp only [] at p1
      constructor <;> [omega; (intro _; omega)]
    · injection h with h
      subst h
      exact ⟨Int.le_refl _, fun hl => hl⟩
    · obtain ⟨a2, e12, e3⟩ := bind_ok _ _ _ h
      obtain ⟨a1, e1, e2⟩ := bind_ok _ _ _ e12
      have p1 := contStep_pos s seq _ _ e1
      have p2 := contStep_pos s seq _ _ e2
      have p3 := contStep_pos s seq _ _ e3
      simp only [] at p1
      constructor <;> [omega; (intro _; omega)]
    · injection h with h
      subst h
      exact ⟨Int.le_refl _, fun hl => hl⟩
    · injection h with h
      subst h
      exact ⟨Int.le_refl _, fun hl => hl⟩
    · injection h with h
      subst h
      exact ⟨Int.le_refl _, fun hl => hl⟩

theorem body_fault (s : Bool) (seq : List Byte) (len : Int) (st : State) (e : Fault)
    (h : body s seq len st = Except.error e) : e = Fault.outOfBounds := by
  unfold body at h
  split at h
  · rename_i e1 hr
    injection h with h
    subst h
    exact readChar_fault s seq _ _ hr
  · simp only [] at h
    split_ifs at h
    · exact contStep_fault s seq _ e h
    · rcases bind_fault _ _ _ h with h1 | ⟨a, _, h2⟩
      · exact contStep_fault s seq _ e h1
      · exact contStep_fault s seq _ e h2
    · rcases bind_fault _ _ _ h with h12 | ⟨a2, _, h3⟩
      · rcases bind_fault _ _ _ h12 with h1 | ⟨a1, _, h2⟩
        · exact contStep_fault s seq _ e h1
        · exact contStep_fault s seq _ e h2
      · exact contStep_fault s seq _ e h3

theorem loopHead_bounds (s : Bool) (seq : List Byte) (len : Int) (k : Nat) (st : State)
    (h : LoopHead s seq len k st) :
    (k : Int) ≤ st.pos ∧ st.pos ≤ len := by
  induction h with
  | entry hneg _ =>
    constructor
    · simp
    · show (0 : Int) ≤ len
      omega
  | iter k st st1 _ _ hlt hbody ih =>
    have hp := body_pos s seq len st st1 hbody
    constructor
    · push_cast
      omega
    · exact hp.2 hlt

/-- The states of `LoopHead` are the states that the executable loop passes through. -/
theorem loop_from_loopHead (s : Bool) (seq : List Byte) (len : Int) (k : Nat) (st : State)
    (h : LoopHead s seq len k st) :
    ∀ fuel : Nat, loop s seq len (k + fuel) { pos := 0, ok := true, uch := 0 }
      = loop s seq len fuel st := by
  induction h with
  | entry _ _ =>
    intro fuel
    rw [Nat.zero_add]
  | iter k st st1 _ hok hlt hbody ih =>
    intro fuel
    have e : k + 1 + fuel = k + (fuel + 1) := by omega
    rw [e, ih (fuel + 1)]
    conv_lhs => unfold loop
    simp [hok, hlt, hbody]

theorem returns_of_len_le (s : Bool) (seq : List Byte) (len : Int)
    (hlen : len ≤ (seq.length : Int)) :
    probablyutf8seq s seq len
      = Except.ok (if len ≤ 0 then decide (len = 0) else scan s (seq.take len.toNat)) := by
  by_cases h0 : len ≤ 0
  · rw [nonpositive_len s seq len h0, if_pos h0]
  · rw [probablyutf8seq_eq_scan s seq len (by omega) hlen, if_neg h0]

/-! ## The line loop of `main` -/

theorem strlen_le (buf : List Byte) : strlen buf ≤ buf.length := by
  induction buf with
  | nil => simp [strlen]
  | cons b rest ih =>
    unfold strlen
    split_ifs
    · simp
    · simp
      exact ih

theorem line_result (s : Bool) (buf : List Byte) :
    probablyutf8seq s buf (strlen buf : Int) = Except.ok (lineAccepted s buf) := by
  have h := returns_of_len_le s buf (strlen buf : Int) (by exact_mod_cast strlen_le buf)
  unfold lineAccepted
  rw [h]
  generalize (if (strlen buf : Int) ≤ 0 then decide ((strlen buf : Int) = 0)
    else scan s (List.take (strlen buf : Int).toNat buf)) = v
  cases v <;> rfl

theorem reportLine_eq (s : Bool) (ms : MainState) (buf : List Byte) :
    reportLine s ms buf = Except.ok
      { lineno := ms.lineno + 1, ok := ms.ok && lineAccepted s buf,
        out := ms.out ++ [(ms.lineno + 1,
          if (ms.ok && lineAccepted s buf) = true then "ok" else "nok")] } := by
  unfold reportLine
  simp only [line_result]
  cases ms.ok <;> simp

theorem reportLines_eq (s : Bool) (lines : List (List Byte)) :
    ∀ ms : MainState, reportLines s lines ms = Except.ok
      { lineno := ms.lineno + (lines.length : Int),
        ok := ms.ok && lines.all (lineAccepted s),
        out := ms.out ++ (List.range lines.length).map (fun (k : Nat) =>
          (ms.lineno + (k : Int) + 1,
            if (ms.ok && (lines.take (k + 1)).all (lineAccepted s)) = true
            then "ok" else "nok")) } := by
  induction lines with
  | nil =>
    intro ms
    simp [reportLines]
  | cons buf rest ih =>
    intro ms
    unfold reportLines
    rw [reportLine_eq]
    simp only []
    rw [ih]
    congr 2
    · simp
      ring
    · simp [Bool.and_assoc]
    · rw [List.length_cons, List.range_succ_eq_map]
      simp [Bool.and_assoc, Function.comp_def]
      intro k _
      ring

/-! ## 32-bit arithmetic against integer arithmetic -/

theorem addInt_ok (a b : Int) (h : -2147483648 ≤ a + b ∧ a + b ≤ 2147483647) :
    addInt a b = Except.ok (a + b) := by
  unfold addInt
  rw [if_pos h]

theorem contStep32_eq (s : Bool) (seq : List Byte) (st : State)
    (h0 : 0 ≤ st.pos) (h1 : st.pos + 1 ≤ 2147483647) :
    contStep32 s seq st = contStep s seq st := by
  unfold contStep32 contStep
  rw [addInt_ok st.pos 1 ⟨by omega, h1⟩]
  split_ifs
  · cases readChar s seq st.pos <;> rfl
  · rfl

theorem body32_eq (s : Bool) (seq : List Byte) (len : Int) (st : State)
    (h0 : 0 ≤ st.pos) (h1 : st.pos < len) (hlen : len ≤ 2147483645) :
    body32 s seq len st = body s seq len st := by
  unfold body32 body
  cases hr : readChar s seq st.pos with
  | error e => rfl
  | ok c =>
    simp only [bind, Except.bind, pure, Except.pure,
      addInt_ok st.pos 1 ⟨by omega, by omega⟩,
      addInt_ok (st.pos + 1) 1 ⟨by omega, by omega⟩,
      addInt_ok (st.pos + 1) 2 ⟨by omega, by omega⟩]
    split_ifs with c0 c1 c2 c3 c4 c5 c6 c7
    · rfl
    · exact contStep32_eq s seq _ (by simp only []; omega) (by simp only []; omega)
    · rfl
    · rw [contStep32_eq s seq _ (by simp only []; omega) (by simp only []; omega)]
      cases hc1 : contStep s seq { pos := st.pos + 1, ok := st.ok, uch := c } with
      | error e => rfl
      | ok v1 =>
        have p1 := contStep_pos s seq _ _ hc1
        simp only [] at p1 ⊢
        exact contStep32_eq s seq v1 (by omega) (by omega)
    · rfl
    · rw [contStep32_eq s seq _ (by simp only []; omega) (by simp only []; omega)]
      cases hc1 : contStep s seq { pos := st.pos + 1, ok := st.ok, uch := c } with
      | error e => rfl
      | ok v1 =>
        have p1 := contStep_pos s seq _ _ hc1
        simp only [] at p1 ⊢
        rw [contStep32_eq s seq v1 (by omega) (by omega)]
        cases hc2 : contStep s seq v1 with
        | error e => rfl
        | ok v2 =>
          have p2 := contStep_pos s seq _ _ hc2
          simp only [] at p2 ⊢
          exact contStep32_eq s seq v2 (by omega) (by omega)
    · rfl
    · rfl
    · rfl

theorem loop32_eq (s : Bool) (seq : List Byte) (len : Int) (hlen : len ≤ 2147483645)
    (fuel : Nat) :
    ∀ st : State, 0 ≤ st.pos → loop32 s seq len fuel st = loop s seq len fuel st := by
  induction fuel with
  | zero =>
    intro st _
    unfold loop32 loop
    rfl
  | succ f ih =>
    intro st h0
    unfold loop32 loop
    by_cases hg : (st.ok && decide (st.pos < len)) = true
    · have hlt : st.pos < len := by
        simp only [Bool.and_eq_true, decide_eq_true_eq] at hg
        exact hg.2
      simp only [hg, if_true]
      rw [body32_eq s seq len st h0 hlt hlen]
      cases hb : body s seq len st with
      | error e => rfl
      | ok st1 =>
        have hp := body_pos s seq len st st1 hb
        exact ih st1 (by omega)
    · simp only [hg]
      rfl

theorem probablyutf8seq32_eq (s : Bool) (seq : List Byte) (len : Int) (hlen : len ≤ 2147483645) :
    probablyutf8seq32 s seq len = probablyutf8seq s seq len := by
  unfold probablyutf8seq32 probablyutf8seq
  rw [loop32_eq s seq len hlen len.toNat _ (Int.le_refl _)]

theorem loop_fault (s : Bool) (seq : List Byte) (len : Int) (fuel : Nat) :
    ∀ (st : State) (e : Fault), loop s seq len fuel st = Except.error e →
      e ≠ Fault.intOverflow := by
  induction fuel with
  | zero =>
    intro st e h
    unfold loop at h
    split_ifs at h
    injection h with h
    subst h
    intro hc
    cases hc
  | succ f ih =>
    intro st e h
    by_cases hg : (st.ok && decide (st.pos < len)) = true
    · unfold loop at h
      simp only [hg, if_true] at h
      cases hb : body s seq len st with
      | error e1 =>
        rw [hb] at h
        injection h with h
        subst h
        rw [body_fault s seq len st e1 hb]
        intro hc
        cases hc
      | ok st1 =>
        rw [hb] at h
        exact ih st1 e h
    · rw [loop_stop s seq len (f + 1) st (by simpa using hg)] at h
      cases h

theorem probablyutf8seq_fault (s : Bool) (seq : List Byte) (len : Int) :
    probablyutf8seq s seq len ≠ Except.error Fault.intOverflow := by
  unfold probablyutf8seq
  split_ifs
  · intro h
    cases h
  · intro h
    cases h
  · split
    · intro h
      cases h
    · rename_i e he
      intro h
      injection h with h
      exact loop_fault s seq len len.toNat _ e he h

/-! ## The claims -/

/-- C1, evaluated where it fails: with signed `char` the three bytes 0x41 0xC1 0xBF are
accepted, although they do not split into forms of the specification (0xC1 is not a lead byte
in 0xC2..0xDF). -/
theorem C1_signed_accepts_unsplittable :
    probablyutf8seq true [0x41, 0xC1, 0xBF] 3 = Except.ok true ∧
      ¬ SpecSplit (List.take 3 [(0x41 : Byte), 0xC1, 0xBF]) := by
  refine ⟨by decide, ?_⟩
  intro h
  have hacc := (unsigned_accepts_iff_specSplit [0x41, 0xC1, 0xBF] 3 (by decide) (by decide)).mpr h
  exact absurd hacc (by decide)

/-- C2, evaluated where it fails: with signed `char` the value of `c` for the stored bytes
0xC0 and 0xC1 is negative, the tests against 0xC0 and 0xC1 pass, and the overlong two-byte
sequences are accepted. -/
theorem C2_signed_accepts_overlong_lead :
    probablyutf8seq true [0xC0, 0x80] 2 = Except.ok true ∧
      probablyutf8seq true [0xC1, 0x80] 2 = Except.ok true ∧
      toChar true 0xC0 = -64 ∧ toChar true 0xC1 = -63 := by
  decide

/-- C3, evaluated where it fails: with signed `char` the value of `c` for the stored byte
0xF5 is -11, the test against 0xF4 passes, and the four-byte sequence is accepted. -/
theorem C3_signed_accepts_lead_above_F4 :
    probablyutf8seq true [0xF5, 0x80, 0x80, 0x80] 4 = Except.ok true ∧
      toChar true 0xF5 = -11 := by
  decide

/-- C4: if the call accepts `A` with its length and accepts `B` with its length, it accepts
`A ++ B` with the sum of the lengths. -/
theorem C4_concatenation (s : Bool) (A B : List Byte)
    (hA : probablyutf8seq s A (A.length : Int) = Except.ok true)
    (hB : probablyutf8seq s B (B.length : Int) = Except.ok true) :
    probablyutf8seq s (A ++ B) ((A.length : Int) + (B.length : Int)) = Except.ok true := by
  have hlen : (A.length : Int) + (B.length : Int) = ((A ++ B).length : Int) := by
    simp
  rw [hlen, accepted_iff_scan, scan_append s A B ((accepted_iff_scan s A).mp hA)]
  exact (accepted_iff_scan s B).mp hB

theorem C4_concatenation_witness :
    probablyutf8seq true [0x41, 0xC3, 0xA9] 3 = Except.ok true ∧
      probablyutf8seq true [0xE2, 0x82, 0xAC] 3 = Except.ok true ∧
      probablyutf8seq true ([0x41, 0xC3, 0xA9] ++ [0xE2, 0x82, 0xAC]) (3 + 3) = Except.ok true :=
  ⟨by decide, by decide,
    C4_concatenation true [0x41, 0xC3, 0xA9] [0xE2, 0x82, 0xAC] (by decide) (by decide)⟩

/-- C5: for every buffer and every `len >= 1`, if one of the first `len` bytes (a byte at an
index `i < len` of the buffer) is 0x00, the call returns false; the buffer need not even hold
`len` bytes, the scan stops at the NUL or before it. -/
theorem C5_nul_rejected (s : Bool) (seq : List Byte) (len : Int) (i : Nat)
    (h1 : 1 ≤ len) (hi : (i : Int) < len) (hz : seq[i]? = some 0) :
    probablyutf8seq s seq len = Except.ok false := by
  unfold probablyutf8seq
  have hneg : ¬ len < 0 := by omega
  have hzero : (len == 0) = false := by
    simp
    omega
  simp only [hneg, hzero, if_false]
  obtain ⟨st1, hloop, hok⟩ := loop_nul s seq len i hz hi i 0 len.toNat 0 (Nat.zero_le _)
    (by omega) (by omega)
  have hcast : ((0 : Nat) : Int) = 0 := rfl
  rw [hcast] at hloop
  rw [hloop]
  simp [hok]

theorem C5_nul_rejected_witness :
    (1 : Int) ≤ 4 ∧ ((3 : Nat) : Int) < 4 ∧
      ([0x41, 0xE2, 0x82, 0x00, 0x42] : List Byte)[3]? = some 0 ∧
      probablyutf8seq false [0x41, 0xE2, 0x82, 0x00, 0x42] 4 = Except.ok false :=
  ⟨by decide, by decide, by decide,
    C5_nul_rejected false [0x41, 0xE2, 0x82, 0x00, 0x42] 4 3 (by decide) (by decide)
      (by decide)⟩

/-- C7: for a lead byte `L` in 0xC2..0xDF, `[L, c]` with `len` 2 is accepted for every `c` in
0x80..0xBF, `[L]` with `len` 1 is refused, and `[L, x]` with `len` 2 is refused for every `x`
outside 0x80..0xBF. -/
theorem C7_two_byte_form (s : Bool) (L : Byte) (hL : 0xC2 ≤ L.val ∧ L.val ≤ 0xDF) :
    (∀ c : Byte, 0x80 ≤ c.val ∧ c.val ≤ 0xBF →
      probablyutf8seq s [L, c] 2 = Except.ok true) ∧
    probablyutf8seq s [L] 1 = Except.ok false ∧
    (∀ x : Byte, ¬ (0x80 ≤ x.val ∧ x.val ≤ 0xBF) →
      probablyutf8seq s [L, x] 2 = Except.ok false) := by
  have har := arity_specLead s L 1 (Or.inl ⟨hL.1, hL.2, rfl⟩)
  refine ⟨?_, ?_, ?_⟩
  · intro c hc
    have := probablyutf8seq_full s [L, c]
    rw [scan_cons, har] at this
    simpa [(isCont_iff s c).mpr hc, scan_nil] using this
  · have := probablyutf8seq_full s [L]
    rw [scan_cons, har] at this
    simpa using this
  · intro x hx
    have hx1 : isCont s x = false := by
      rw [isCont_table]
      simpa using hx
    have := probablyutf8seq_full s [L, x]
    rw [scan_cons, har] at this
    simpa [hx1] using this

theorem C7_two_byte_form_witness :
    ((0xC2 : Nat) ≤ (0xC3 : Byte).val ∧ (0xC3 : Byte).val ≤ 0xDF) ∧
      probablyutf8seq true [0xC3, 0x80] 2 = Except.ok true ∧
      probablyutf8seq true [0xC3] 1 = Except.ok false ∧
      probablyutf8seq true [0xC3, 0x41] 2 = Except.ok false :=
  ⟨by decide,
    (C7_two_byte_form true 0xC3 (by decide)).1 0x80 (by decide),
    (C7_two_byte_form true 0xC3 (by decide)).2.1,
    (C7_two_byte_form true 0xC3 (by decide)).2.2 0x41 (by decide)⟩

/-- C8: for a lead byte `L` in 0xE0..0xEF and bytes `c1`, `c2` in 0x80..0xBF, `[L, c1, c2]`
with `len` 3 is accepted; no further check is made on the encoded code point. -/
theorem C8_three_byte_form (s : Bool) (L c1 c2 : Byte) (hL : 0xE0 ≤ L.val ∧ L.val ≤ 0xEF)
    (h1 : 0x80 ≤ c1.val ∧ c1.val ≤ 0xBF) (h2 : 0x80 ≤ c2.val ∧ c2.val ≤ 0xBF) :
    probablyutf8seq s [L, c1, c2] 3 = Except.ok true := by
  have har := arity_specLead s L 2 (Or.inr (Or.inl ⟨hL.1, hL.2, rfl⟩))
  have := probablyutf8seq_full s [L, c1, c2]
  rw [scan_cons, har] at this
  simpa [(isCont_iff s c1).mpr h1, (isCont_iff s c2).mpr h2, scan_nil] using this

theorem C8_three_byte_form_witness :
    probablyutf8seq true [0xE0, 0x80, 0x80] 3 = Except.ok true ∧
      probablyutf8seq true [0xED, 0xA0, 0x80] 3 = Except.ok true ∧
      probablyutf8seq false [0xE0, 0x80, 0x80] 3 = Except.ok true ∧
      probablyutf8seq false [0xED, 0xA0, 0x80] 3 = Except.ok true :=
  ⟨C8_three_byte_form true 0xE0 0x80 0x80 (by decide) (by decide) (by decide),
    C8_three_byte_form true 0xED 0xA0 0x80 (by decide) (by decide) (by decide),
    C8_three_byte_form false 0xE0 0x80 0x80 (by decide) (by decide) (by decide),
    C8_three_byte_form false 0xED 0xA0 0x80 (by decide) (by decide) (by decide)⟩

/-- C9: for a lead byte `L` in 0xF0..0xF4 and bytes `c1`, `c2`, `c3` in 0x80..0xBF,
`[L, c1, c2, c3]` with `len` 4 is accepted. -/
theorem C9_four_byte_form (s : Bool) (L c1 c2 c3 : Byte) (hL : 0xF0 ≤ L.val ∧ L.val ≤ 0xF4)
    (h1 : 0x80 ≤ c1.val ∧ c1.val ≤ 0xBF) (h2 : 0x80 ≤ c2.val ∧ c2.val ≤ 0xBF)
    (h3 : 0x80 ≤ c3.val ∧ c3.val ≤ 0xBF) :
    probablyutf8seq s [L, c1, c2, c3] 4 = Except.ok true := by
  have har := arity_specLead s L 3 (Or.inr (Or.inr ⟨hL.1, hL.2, rfl⟩))
  have := probablyutf8seq_full s [L, c1, c2, c3]
  rw [scan_cons, har] at this
  simpa [(isCont_iff s c1).mpr h1, (isCont_iff s c2).mpr h2, (isCont_iff s c3).mpr h3,
    scan_nil] using this

theorem C9_four_byte_form_witness :
    probablyutf8seq true [0xF0, 0x90, 0x80, 0x80] 4 = Except.ok true ∧
      probablyutf8seq false [0xF0, 0x90, 0x80, 0x80] 4 = Except.ok true :=
  ⟨C9_four_byte_form true 0xF0 0x90 0x80 0x80 (by decide) (by decide) (by decide) (by decide),
    C9_four_byte_form false 0xF0 0x90 0x80 0x80 (by decide) (by decide) (by decide) (by decide)⟩

/-- C10: after an accepted sequence `A` (possibly empty), a byte in 0x80..0xBF standing where
a lead byte is expected makes the call on `A ++ [b] ++ R`, with its full length, return false,
whatever `R` is. -/
theorem C10_stray_continuation_rejected (s : Bool) (A : List Byte) (b : Byte) (R : List Byte)
    (hA : probablyutf8seq s A (A.length : Int) = Except.ok true)
    (hb : 0x80 ≤ b.val ∧ b.val ≤ 0xBF) :
    probablyutf8seq s (A ++ [b] ++ R) (((A ++ [b] ++ R).length : Nat) : Int)
      = Except.ok false := by
  rw [probablyutf8seq_full, List.append_assoc,
    scan_append s A _ ((accepted_iff_scan s A).mp hA)]
  show Except.ok (scan s (b :: R)) = Except.ok false
  rw [scan_cons, arity_of_cont s b hb]

theorem C10_stray_continuation_rejected_witness :
    probablyutf8seq true [] (([] : List Byte).length : Int) = Except.ok true ∧
      ((0x80 : Nat) ≤ (0x80 : Byte).val ∧ (0x80 : Byte).val ≤ 0xBF) ∧
      probablyutf8seq true [0x80] 1 = Except.ok false :=
  ⟨by decide, by decide, C10_stray_continuation_rejected true [] 0x80 [] (by decide) (by decide)⟩

/-- C11: a single byte in 0x01..0x7F with `len` 1 is accepted, and the single byte 0x00
with `len` 1 is refused. -/
theorem C11_single_byte (s : Bool) :
    (∀ b : Byte, 0x01 ≤ b.val ∧ b.val ≤ 0x7F → probablyutf8seq s [b] 1 = Except.ok true) ∧
      probablyutf8seq s [0x00] 1 = Except.ok false := by
  constructor
  · intro b hb
    have := probablyutf8seq_full s [b]
    rw [scan_cons, arity_of_ascii s b hb] at this
    simpa [scan_nil] using this
  · cases s <;> decide

theorem C11_single_byte_witness :
    ((0x01 : Nat) ≤ (0x41 : Byte).val ∧ (0x41 : Byte).val ≤ 0x7F) ∧
      probablyutf8seq true [0x41] 1 = Except.ok true ∧
      probablyutf8seq true [0x00] 1 = Except.ok false :=
  ⟨by decide, (C11_single_byte true).1 0x41 (by decide), (C11_single_byte true).2⟩

/-- C12: for `len <= 0` the call returns true when `len = 0` and false when `len < 0`, for
every buffer; in particular on the empty buffer, where any read would be a fault, so no byte
is read. -/
theorem C12_nonpositive_len (s : Bool) (seq : List Byte) (len : Int) (h : len ≤ 0) :
    probablyutf8seq s seq len = Except.ok (decide (len = 0)) ∧
      probablyutf8seq s [] len = probablyutf8seq s seq len := by
  exact ⟨nonpositive_len s seq len h,
    by rw [nonpositive_len s seq len h, nonpositive_len s [] len h]⟩

theorem C12_nonpositive_len_witness :
    ((-1 : Int) ≤ 0) ∧
      probablyutf8seq true [0xFF, 0x00] (-1) = Except.ok (decide ((-1 : Int) = 0)) ∧
      probablyutf8seq true [] (-1) = probablyutf8seq true [0xFF, 0x00] (-1) :=
  ⟨by decide, (C12_nonpositive_len true [0xFF, 0x00] (-1) (by decide)).1,
    (C12_nonpositive_len true [0xFF, 0x00] (-1) (by decide)).2⟩

/-- C13: after an accepted sequence `A`, a lead byte of arity `N` followed by `N` bytes of
which at least one lies outside 0x80..0xBF makes the call return false, whatever tail `R`
follows. -/
theorem C13_bad_continuation_rejected (s : Bool) (A : List Byte) (lead : Byte) (N : Nat)
    (cs R : List Byte)
    (hA : probablyutf8seq s A (A.length : Int) = Except.ok true)
    (hlead : SpecLead lead N) (hN : cs.length = N) (hbad : ∃ c ∈ cs, ¬ SpecCont c) :
    probablyutf8seq s (A ++ [lead] ++ cs ++ R) (((A ++ [lead] ++ cs ++ R).length : Nat) : Int)
      = Except.ok false := by
  have hsplit : A ++ [lead] ++ cs ++ R = A ++ lead :: (cs ++ R) := by simp
  rw [probablyutf8seq_full, hsplit, scan_append s A _ ((accepted_iff_scan s A).mp hA),
    scan_form s lead cs R N (arity_specLead s lead N hlead) hN]
  have hall : cs.all (isCont s) = false := by
    rw [List.all_eq_false]
    obtain ⟨c, hc, hbadc⟩ := hbad
    refine ⟨c, hc, ?_⟩
    rw [isCont_iff]
    exact hbadc
  rw [hall, Bool.false_and]

set_option maxRecDepth 100000 in
theorem C13_bad_continuation_rejected_witness :
    probablyutf8seq true [0x41] 1 = Except.ok true ∧ SpecLead 0xE2 2 ∧
      ([0x82, 0x41] : List Byte).length = 2 ∧ (∃ c ∈ ([0x82, 0x41] : List Byte), ¬ SpecCont c) ∧
      probablyutf8seq true ([0x41] ++ [0xE2] ++ [0x82, 0x41] ++ [0x42]) 5 = Except.ok false :=
  ⟨by decide, by decide, by decide, by decide,
    C13_bad_continuation_rejected true [0x41] 0xE2 2 [0x82, 0x41] [0x42] (by decide) (by decide)
      (by decide) (by decide)⟩

/-- C17, as stated, fails: the first line (a lone 0x80) is refused, and the second line, which
`probablyutf8seq` accepts on its own, is reported "nok" as well. -/
theorem C17_valid_line_after_invalid_is_nok :
    mainLoop true [[0x80, 0x0A, 0x00], [0x41, 0x0A, 0x00]] = Except.ok [(1, "nok"), (2, "nok")] ∧
      probablyutf8seq true [0x41, 0x0A, 0x00] (strlen [0x41, 0x0A, 0x00] : Int)
        = Except.ok true := by
  decide

/-- C17, amended: the line loop prints one status per buffer, and the status printed for
line `k + 1` is "ok" if and only if `probablyutf8seq` accepts the buffer of every line up to
and including that one (the variable `ok` of `main` accumulates the verdicts with `&&`). -/
theorem C17_status_is_cumulative (s : Bool) (lines : List (List Byte)) :
    mainLoop s lines = Except.ok ((List.range lines.length).map (fun (k : Nat) =>
      ((k : Int) + 1,
        if (lines.take (k + 1)).all (lineAccepted s) = true then "ok" else "nok"))) := by
  unfold mainLoop
  rw [reportLines_eq]
  simp

/-- C20: for `0 <= len <= 2^31 - 3` the `int` arithmetic of the call does not overflow.  At
every loop head `0 <= pos <= len`, so the incremented cursor and the lookahead values `pos+1`
and `pos+2` computed from it lie in `0..2^31 - 1`; the function with range-checked sums never
reports an overflow and returns exactly what the function on unbounded integers returns. -/
theorem C20_no_int_overflow (s : Bool) (seq : List Byte) (len : Int)
    (h0 : 0 ≤ len) (hmax : len ≤ 2147483645) :
    (∀ (k : Nat) (st : State), LoopHead s seq len k st →
      0 ≤ st.pos ∧ st.pos ≤ 2147483647 ∧
        (st.pos < len → 0 ≤ st.pos + 1 ∧ st.pos + 1 + 1 ≤ 2147483647 ∧
          st.pos + 1 + 2 ≤ 2147483647)) ∧
    probablyutf8seq32 s seq len ≠ Except.error Fault.intOverflow ∧
    probablyutf8seq32 s seq len = probablyutf8seq s seq len := by
  have heq := probablyutf8seq32_eq s seq len hmax
  refine ⟨?_, ?_, heq⟩
  · intro k st h
    have hb := loopHead_bounds s seq len k st h
    refine ⟨by omega, by omega, ?_⟩
    intro hlt
    refine ⟨by omega, by omega, by omega⟩
  · rw [heq]
    exact probablyutf8seq_fault s seq len

theorem C20_no_int_overflow_witness :
    ((0 : Int) ≤ 3) ∧ ((3 : Int) ≤ 2147483645) ∧
      probablyutf8seq32 true [0xE2, 0x82, 0xAC] 3 ≠ Except.error Fault.intOverflow ∧
      probablyutf8seq32 true [0xE2, 0x82, 0xAC] 3 = probablyutf8seq true [0xE2, 0x82, 0xAC] 3 :=
  ⟨by decide, by decide,
    (C20_no_int_overflow true [0xE2, 0x82, 0xAC] 3 (by decide) (by decide)).2.1,
    (C20_no_int_overflow true [0xE2, 0x82, 0xAC] 3 (by decide) (by decide)).2.2⟩

end Utf8Check
